import Mathlib

/-!
Verification of the numeric core of the `fmri-5` RSA notebook.

The notebook computes representational dissimilarity matrices (RDMs) over
response patterns, builds hand-made model RDMs, and compares them by rank
correlation.  Response patterns are embedded as lists of rationals; the
library distance routines (condensed-form pairwise distances, square-form
conversion, rank correlation) are modelled from their documented semantics
as stated in the design document, while the hand-written notebook code
(model-RDM construction, `rank_percentile`) is translated directly.
-/

namespace RSA

/-- Modelled from the spec: the condensed (vectorized) pair order used by the
dissimilarity computer — all unordered pairs `(i, j)` with `i < j` over `n`
indices, ordered first by `i` and then by `j`. -/
def pdistPairs (n : ℕ) : List (ℕ × ℕ) :=
  (List.range n ×ˢ List.range n).filter (fun p => p.1 < p.2)

/-- Modelled from the spec: the dissimilarity computer.  Given a distance
function `d` and an ordered collection of response patterns, it returns the
vectorized distances over all unordered pairs in the canonical order.
The call filling this role in the notebook is an unfilled exercise cell. -/
def pdist {α : Type} (d : List ℚ → List ℚ → α) (xs : List (List ℚ)) : List α :=
  (pdistPairs xs.length).map (fun p => d (xs.getD p.1 []) (xs.getD p.2 []))

/-- Mean of a list of rationals (empty list gives 0). -/
def mean (x : List ℚ) : ℚ := x.sum / (x.length : ℚ)

/-- Unnormalized centered cross-moment of two lists: the sum of products of
mean-centered entries.  `covar x x` is nonzero exactly when `x` has nonzero
variance, since the variance is `covar x x` divided by the length. -/
def covar (x y : List ℚ) : ℚ :=
  (List.zipWith (fun a b => (a - mean x) * (b - mean y)) x y).sum

/-- Squared Euclidean distance between two equal-length vectors. -/
def sqEuclidean (x y : List ℚ) : ℚ :=
  (List.zipWith (fun a b => (a - b) ^ 2) x y).sum

/-- Pearson correlation coefficient of two vectors, as a real number:
centered cross-moment over the product of the square roots of the centered
self-moments (the normalizations by length cancel). -/
noncomputable def pearsonR (x y : List ℚ) : ℝ :=
  ((covar x y : ℝ)) / (Real.sqrt (covar x x) * Real.sqrt (covar y y))

/-- Modelled from the spec: correlation distance is 1 minus the Pearson
correlation of the two vectors. -/
noncomputable def corrDist (x y : List ℚ) : ℝ := 1 - pearsonR x y

/-- Modelled from the spec: Euclidean distance is the L2 norm of the
difference of the two vectors. -/
noncomputable def euclDist (x y : List ℚ) : ℝ := Real.sqrt (sqEuclidean x y)

/-- Modelled from the spec: the dissimilarity computer in correlation mode
signals an error (`none`) as soon as the input collection contains a
degenerate (zero-variance) pattern, instead of coercing the undefined value
into a number.  The notebook cell calling the distance routine is an
unfilled exercise cell, so the behavior is taken from the design document. -/
noncomputable def pdistChecked (xs : List (List ℚ)) : Option (List ℝ) :=
  if xs.any (fun x => covar x x = 0) then none else some (pdist corrDist xs)

/-- Modelled from the spec: average fractional ranks (standard
rank-correlation convention).  The rank of an entry `x` is the number of
entries strictly below `x` plus half of one more than the number of entries
equal to `x`, i.e. the average of the positions the ties would occupy. -/
def rankdata (a : List ℚ) : List ℚ :=
  a.map (fun x =>
    (a.countP (fun y => y < x) : ℚ) + ((a.countP (fun y => y = x) : ℚ) + 1) / 2)

/-- Modelled from the spec: Spearman rank correlation is the Pearson
correlation of the rank-transformed arrays. -/
noncomputable def spearman (a b : List ℚ) : ℝ :=
  pearsonR (rankdata a) (rankdata b)

/-- Position of the pair `(i, j)` (with `i < j`) inside the canonical
condensed order for `n` indices. -/
def sqIndex (n i j : ℕ) : ℕ := (pdistPairs n).indexOf (i, j)

/-- Modelled from the spec: `squareform` expanding a condensed vector `v`
over `n` indices into the square matrix, represented as a function of the
two indices: symmetric off-diagonal lookups into `v`, zero diagonal. -/
def squareform_mat (v : List ℚ) (n : ℕ) (i j : ℕ) : ℚ :=
  if i < j then v.getD (sqIndex n i j) 0
  else if j < i then v.getD (sqIndex n j i) 0
  else 0

/-- Modelled from the spec: `squareform` collapsing a square matrix back to
the condensed vector by reading the upper triangle in canonical order. -/
def squareform_vec (M : ℕ → ℕ → ℚ) (n : ℕ) : List ℚ :=
  (pdistPairs n).map (fun p => M p.1 p.2)

/-- The `combinations(·, 2)` construction from the notebook: all unordered
pairs of list entries in the order produced by `itertools.combinations`. -/
def combinations2 {α : Type} : List α → List (α × α)
  | [] => []
  | a :: rest => (rest.map (fun b => (a, b))) ++ combinations2 rest

/-- Real-world size list from the notebook: `sizes = [.3, .35, .2, .2, .1, .5, 1, 0]`. -/
def sizes : List ℚ := [3/10, 35/100, 2/10, 2/10, 1/10, 5/10, 1, 0]

/-- Size-model RDM from the notebook: for each pair from
`combinations(sizes, 2)`, append `np.abs(pair[0] - pair[1])`. -/
def rdm_size : List ℚ := (combinations2 sizes).map (fun p => |p.1 - p.2|)

/-- Modelled from the spec: the length of the neural RDM `rdm_vt`, the
vectorized correlation-distance RDM over the 8 categories, hence
`8 * 7 / 2 = 28`.  The cell computing `rdm_vt` itself is an unfilled
exercise cell. -/
def len_rdm_vt : ℕ := 28

/-- Animacy model RDM from the notebook: `np.ones(len(rdm_vt))` with entry 8
set to `.5`. -/
def rdm_animacy : List ℚ := (List.replicate len_rdm_vt 1).set 8 (1/2)

/-- Tool model RDM from the notebook: `np.ones(len(rdm_vt))` with entries 4,
6 and 26 set to `.5`. -/
def rdm_tools : List ℚ :=
  (((List.replicate len_rdm_vt 1).set 4 (1/2)).set 6 (1/2)).set 26 (1/2)

/-- Modelled from the spec: the alphabetically ordered unique stimulus
categories of the Haxby dataset (the labels file itself is external data). -/
def categories : List String :=
  ["bottle", "cat", "chair", "face", "house", "scissors", "scrambledpix", "shoe"]

/-- The `rank_percentile` helper from the notebook:
`rankdata(a) / len(a) * 100`. -/
def rank_percentile (a : List ℚ) : List ℚ :=
  (rankdata a).map (fun r => r / (a.length : ℚ) * 100)

/-! Structural lemmas about the canonical pair order. -/

lemma map_sprod {α β γ δ : Type} (f : α → γ) (g : β → δ) (l : List α) (m : List β) :
    (l.map f) ×ˢ (m.map g) = (l ×ˢ m).map (Prod.map f g) := by
  induction l with
  | nil => simp
  | cons a t ih =>
      simp only [List.map_cons, List.product_cons, ih, List.map_append, List.map_map]
      congr 1

lemma filter_sprod_cons_not (l : List ℕ) (b : ℕ) (m : List ℕ)
    (h : ∀ a ∈ l, ¬ a < b) :
    (l ×ˢ (b :: m)).filter (fun p => p.1 < p.2) =
      (l ×ˢ m).filter (fun p => p.1 < p.2) := by
  induction l with
  | nil => simp
  | cons a t ih =>
      have ha : ¬ a < b := h a (List.mem_cons_self a t)
      have ht : ∀ x ∈ t, ¬ x < b := fun x hx => h x (List.mem_cons_of_mem a hx)
      simp only [List.product_cons, List.filter_append, List.map_cons,
        List.filter_cons, decide_eq_true_eq, if_neg ha]
      rw [ih ht]

lemma pdistPairs_succ (n : ℕ) :
    pdistPairs (n + 1) =
      (List.range n).map (fun j => (0, j + 1)) ++
        (pdistPairs n).map (fun p => (p.1 + 1, p.2 + 1)) := by
  unfold pdistPairs
  rw [List.range_succ_eq_map]
  rw [List.product_cons, List.filter_append]
  congr 1
  · rw [List.filter_map]
    have h1 : (List.filter ((fun p => decide (p.1 < p.2)) ∘ (fun b => ((0:ℕ), b)))
        (0 :: List.map Nat.succ (List.range n))) = List.map Nat.succ (List.range n) := by
      rw [List.filter_cons]
      simp only [Function.comp]
      norm_num
    rw [h1, List.map_map]
    simp [Function.comp, Nat.succ_eq_add_one]
  · rw [filter_sprod_cons_not _ 0 _ (by simp)]
    rw [map_sprod Nat.succ Nat.succ]
    rw [List.filter_map]
    have h2 : ((fun p : ℕ × ℕ => decide (p.1 < p.2)) ∘ (Prod.map Nat.succ Nat.succ)) =
        (fun p : ℕ × ℕ => decide (p.1 < p.2)) := by
      funext p
      simp [Prod.map, Nat.succ_lt_succ_iff]
    rw [h2]
    apply List.map_congr_left
    rintro ⟨i, j⟩ _
    rfl

lemma pdistPairs_zero : pdistPairs 0 = [] := rfl

lemma length_pdistPairs_mul_two (n : ℕ) :
    (pdistPairs n).length * 2 = n * (n - 1) := by
  induction n with
  | zero => rfl
  | succ m ih =>
      rw [pdistPairs_succ]
      simp only [List.length_append, List.length_map, List.length_range,
        Nat.add_sub_cancel]
      have key : m * (m - 1) + 2 * m = (m + 1) * m := by
        cases m with
        | zero => rfl
        | succ k =>
            simp only [Nat.add_sub_cancel]
            ring
      omega

lemma length_pdistPairs (n : ℕ) : (pdistPairs n).length = n * (n - 1) / 2 := by
  have h := length_pdistPairs_mul_two n
  omega

lemma map_getD_range {α : Type} (l : List α) (d : α) :
    (List.range l.length).map (fun j => l.getD j d) = l := by
  apply List.ext_getElem
  · simp
  · intro i h1 h2
    simp only [List.getElem_map, List.getElem_range]
    rw [List.getD_eq_getElem?_getD, List.getElem?_eq_getElem h2]
    rfl

lemma combinations2_eq {α : Type} (l : List α) (d : α) :
    combinations2 l = (pdistPairs l.length).map (fun p => (l.getD p.1 d, l.getD p.2 d)) := by
  induction l with
  | nil => rfl
  | cons a t ih =>
      have h1 : t.map (fun b => (a, b)) =
          ((List.range t.length).map (fun j => ((0 : ℕ), j + 1))).map
            (fun p : ℕ × ℕ => ((a :: t).getD p.1 d, (a :: t).getD p.2 d)) := by
        conv_lhs => rw [← map_getD_range t d]
        rw [List.map_map, List.map_map]
        apply List.map_congr_left
        intro j _
        rfl
      have h2 : combinations2 t =
          ((pdistPairs t.length).map (fun p => (p.1 + 1, p.2 + 1))).map
            (fun p : ℕ × ℕ => ((a :: t).getD p.1 d, (a :: t).getD p.2 d)) := by
        rw [List.map_map, ih]
        apply List.map_congr_left
        rintro ⟨i, j⟩ _
        rfl
      rw [List.length_cons, pdistPairs_succ, List.map_append]
      show (t.map (fun b => (a, b))) ++ combinations2 t = _
      rw [h1, h2]

lemma mem_pdistPairs (n : ℕ) (p : ℕ × ℕ) :
    p ∈ pdistPairs n ↔ p.1 < p.2 ∧ p.2 < n := by
  unfold pdistPairs
  rcases p with ⟨i, j⟩
  simp only [List.mem_filter, List.mem_product, List.mem_range, decide_eq_true_eq]
  constructor
  · rintro ⟨⟨h1, h2⟩, h3⟩
    exact ⟨h3, h2⟩
  · rintro ⟨h1, h2⟩
    exact ⟨⟨lt_trans h1 h2, h2⟩, h1⟩

lemma nodup_pdistPairs (n : ℕ) : (pdistPairs n).Nodup :=
  ((List.nodup_range n).product (List.nodup_range n)).filter _

/-! Analytic lemmas about the distance measures. -/

lemma covar_self_nonneg (x : List ℚ) : 0 ≤ covar x x := by
  unfold covar
  rw [List.zipWith_same]
  apply List.sum_nonneg
  intro q hq
  rw [List.mem_map] at hq
  obtain ⟨a, _, rfl⟩ := hq
  exact mul_self_nonneg _

lemma pearsonR_self (x : List ℚ) (h : covar x x ≠ 0) : pearsonR x x = 1 := by
  unfold pearsonR
  have h0 : (0:ℝ) ≤ ((covar x x : ℚ) : ℝ) := by exact_mod_cast covar_self_nonneg x
  rw [Real.mul_self_sqrt h0]
  apply div_self
  exact_mod_cast h

lemma sqEuclidean_self (x : List ℚ) : sqEuclidean x x = 0 := by
  unfold sqEuclidean
  rw [List.zipWith_same]
  have hz : x.map (fun a => (a - a) ^ 2) = x.map (fun _ => (0:ℚ)) := by
    apply List.map_congr_left
    intro a _
    ring
  rw [hz]
  simp

/-- C2: for every pair of identical response patterns, the correlation
distance (1 minus Pearson correlation) equals 0 under the precondition —
scoped to correlation distance only — that the vector has nonzero variance,
and the Euclidean distance (L2 norm of the difference) equals 0
unconditionally. -/
theorem corr_eucl_dist_self_zero (x : List ℚ) :
    (covar x x ≠ 0 → corrDist x x = 0) ∧ euclDist x x = 0 := by
  constructor
  · intro h
    unfold corrDist
    rw [pearsonR_self x h]
    ring
  · unfold euclDist
    rw [sqEuclidean_self]
    simp

/-- Witness for C2: the correlation part at the nondegenerate pattern
`[0, 1]`, the unconditional Euclidean part also at the degenerate constant
pattern `[1, 1]`. -/
theorem corr_eucl_dist_self_zero_witness :
    (covar [0, 1] [0, 1] ≠ 0 ∧ corrDist [0, 1] [0, 1] = 0) ∧
      euclDist [0, 1] [0, 1] = 0 ∧ euclDist [1, 1] [1, 1] = 0 :=
  ⟨⟨by norm_num [covar, mean],
      (corr_eucl_dist_self_zero [0, 1]).1 (by norm_num [covar, mean])⟩,
    (corr_eucl_dist_self_zero [0, 1]).2, (corr_eucl_dist_self_zero [1, 1]).2⟩

/-- C5 counterexample: for the constant dissimilarity array `[1, 1]`, the
Spearman rank correlation with itself is not 1 (the rank vector is constant,
so the correlation is undefined rather than 1; in the embedding the
division by a zero normalizer yields 0). -/
theorem spearman_self_const_ne_one : spearman [1, 1] [1, 1] ≠ 1 := by
  have hc : covar (rankdata [1, 1]) (rankdata [1, 1]) = 0 := by
    norm_num [covar, mean, rankdata]
  unfold spearman pearsonR
  rw [hc]
  norm_num

/-- C5 amended: for every dissimilarity array whose rank vector is not
constant (nonzero rank variance), the Spearman rank correlation of the
array with itself equals 1. -/
theorem spearman_self_eq_one (a : List ℚ)
    (h : covar (rankdata a) (rankdata a) ≠ 0) : spearman a a = 1 :=
  pearsonR_self (rankdata a) h

/-- Witness for the amended C5 at the concrete array `[1, 2]`. -/
theorem spearman_self_eq_one_witness :
    covar (rankdata [1, 2]) (rankdata [1, 2]) ≠ 0 ∧ spearman [1, 2] [1, 2] = 1 :=
  ⟨by norm_num [covar, mean, rankdata],
    spearman_self_eq_one [1, 2] (by norm_num [covar, mean, rankdata])⟩

/-- C6: whenever the input collection contains a degenerate (zero-variance)
response pattern, the checked dissimilarity computer signals the error
immediately by returning `none` rather than a coerced numeric array. -/
theorem pdistChecked_none_of_degenerate (xs : List (List ℚ)) (x : List ℚ)
    (hx : x ∈ xs) (h : covar x x = 0) : pdistChecked xs = none := by
  have hany : (xs.any (fun x => covar x x = 0)) = true := by
    rw [List.any_eq_true]
    exact ⟨x, hx, by simp [h]⟩
  simp [pdistChecked, hany]

/-- Witness for C6 at the collection containing only the constant pattern
`[1, 1]`. -/
theorem pdistChecked_none_of_degenerate_witness :
    [1, 1] ∈ [[(1:ℚ), 1]] ∧ covar [1, 1] [1, 1] = 0 ∧ pdistChecked [[1, 1]] = none :=
  ⟨List.mem_singleton.mpr rfl, by norm_num [covar, mean],
    pdistChecked_none_of_degenerate [[1, 1]] [1, 1] (List.mem_singleton.mpr rfl)
      (by norm_num [covar, mean])⟩

/-- C1: the vectorized dissimilarity array over a collection of N response
patterns has exactly N*(N-1)/2 entries; in particular 28 entries for N=8
and 4560 entries for N=96, and the size-model RDM built from the 8-element
sizes list has length 28. -/
theorem rdm_length_law :
    (∀ (α : Type) (d : List ℚ → List ℚ → α) (xs : List (List ℚ)),
        (pdist d xs).length = xs.length * (xs.length - 1) / 2) ∧
      (pdistPairs 8).length = 28 ∧ (pdistPairs 96).length = 4560 ∧
      rdm_size.length = 28 := by
  refine ⟨fun α d xs => ?_, ?_, ?_, ?_⟩
  · unfold pdist
    rw [List.length_map, length_pdistPairs]
  · rw [length_pdistPairs]
  · rw [length_pdistPairs]
  · rfl

/-- C3: the condensed output enumerates the unordered pairs in the canonical
order — pair (i, j) with i < j, sorted by i then j: every such pair over n
indices occurs (exactly once, the list being duplicate-free), the
combinations-based construction of the notebook lists entries in exactly
this order for every list, and in particular the size RDM lists
|sizes[i] - sizes[j]| in canonical pair order. -/
theorem pdist_canonical_order :
    (∀ (n : ℕ) (p : ℕ × ℕ), p ∈ pdistPairs n ↔ p.1 < p.2 ∧ p.2 < n) ∧
      (∀ n : ℕ, (pdistPairs n).Nodup) ∧
      (∀ (α : Type) (l : List α) (d : α),
        combinations2 l =
          (pdistPairs l.length).map (fun p => (l.getD p.1 d, l.getD p.2 d))) ∧
      rdm_size = (pdistPairs 8).map (fun p => |sizes.getD p.1 0 - sizes.getD p.2 0|) := by
  refine ⟨mem_pdistPairs, nodup_pdistPairs, fun α l d => combinations2_eq l d, ?_⟩
  have h : rdm_size =
      (pdistPairs sizes.length).map (fun p => |sizes.getD p.1 0 - sizes.getD p.2 0|) := by
    unfold rdm_size
    rw [combinations2_eq sizes 0, List.map_map]
    rfl
  exact h

/-- C7: the first entry of the size-model RDM is the distance for the first
canonical pair, |sizes[0] - sizes[1]| = |0.3 - 0.35| = 0.05 = 1/20. -/
theorem rdm_size_first_entry :
    rdm_size.getD 0 0 = |sizes.getD 0 0 - sizes.getD 1 0| ∧
      rdm_size.getD 0 0 = 1/20 := by
  constructor
  · norm_num [rdm_size, combinations2, sizes]
  · norm_num [rdm_size, combinations2, sizes]

/-- C9: the hand-built binary model RDMs have the length of the neural RDM
(28) with entries in {1, 1/2}: the animacy RDM is 1/2 at exactly index 8 —
the cat–face pair under the canonical pair order over the 8 alphabetical
categories — and 1 elsewhere; the tool RDM is 1/2 at exactly indices 4, 6
and 26 — the bottle–scissors, bottle–shoe and scissors–shoe pairs — and 1
elsewhere. -/
theorem model_rdm_structure :
    rdm_animacy.length = len_rdm_vt ∧ rdm_tools.length = len_rdm_vt ∧
      len_rdm_vt = (pdistPairs 8).length ∧
      (∀ k, k < len_rdm_vt →
        rdm_animacy.getD k 0 = (if k = 8 then 1/2 else 1) ∧
        rdm_tools.getD k 0 = (if k = 4 ∨ k = 6 ∨ k = 26 then 1/2 else 1)) ∧
      (pdistPairs 8).getD 8 (0, 0) = (1, 3) ∧
      categories.getD 1 "" = "cat" ∧ categories.getD 3 "" = "face" ∧
      (pdistPairs 8).getD 4 (0, 0) = (0, 5) ∧
      (pdistPairs 8).getD 6 (0, 0) = (0, 7) ∧
      (pdistPairs 8).getD 26 (0, 0) = (5, 7) ∧
      categories.getD 0 "" = "bottle" ∧ categories.getD 5 "" = "scissors" ∧
      categories.getD 7 "" = "shoe" := by
  refine ⟨rfl, rfl, by decide, ?_, by decide, rfl, rfl, by decide, by decide,
    by decide, rfl, rfl, rfl⟩
  intro k hk
  have hk28 : k < 28 := hk
  constructor
  · interval_cases k <;> norm_num [rdm_animacy, len_rdm_vt]
  · interval_cases k <;> norm_num [rdm_tools, len_rdm_vt]

/-- Witness for C9 instantiating the entry characterization at indices 8
and 5. -/
theorem model_rdm_structure_witness :
    (8 < len_rdm_vt ∧ rdm_animacy.getD 8 0 = 1/2) ∧
      (5 < len_rdm_vt ∧ rdm_tools.getD 5 0 = 1) := by
  have h8 := model_rdm_structure.2.2.2.1 8 (by decide)
  have h5 := model_rdm_structure.2.2.2.1 5 (by decide)
  refine ⟨⟨by decide, ?_⟩, ⟨by decide, ?_⟩⟩
  · rw [h8.1]
    norm_num
  · rw [h5.2]
    norm_num

lemma indexOf_lt_length_of_mem {α : Type} [BEq α] [LawfulBEq α] {a : α}
    {l : List α} (h : a ∈ l) : l.indexOf a < l.length :=
  List.findIdx_lt_length_of_exists ⟨a, h, by simp⟩

lemma getElem_indexOf_mem {α : Type} [BEq α] [LawfulBEq α] {a : α}
    {l : List α} (hidx : l.indexOf a < l.length) : l[l.indexOf a] = a := by
  have hidx2 : l.findIdx (fun x => x == a) < l.length := hidx
  have h2 := List.findIdx_of_getElem?_eq_some (List.getElem?_eq_getElem hidx2)
  have h3 : l[l.indexOf a] = l[l.findIdx (fun x => x == a)] := rfl
  rw [h3]
  exact eq_of_beq h2

lemma map_getD_indexOf {α : Type} [BEq α] [LawfulBEq α] (l : List α) (v : List ℚ)
    (hn : l.Nodup) (hv : v.length = l.length) :
    l.map (fun p => v.getD (l.indexOf p) 0) = v := by
  apply List.ext_getElem
  · simp [hv]
  · intro k h1 h2
    rw [List.getElem_map]
    have hlk : k < l.length := by
      simpa using h1
    have hmem : l[k] ∈ l := List.getElem_mem hlk
    have hidx : l.indexOf l[k] < l.length := indexOf_lt_length_of_mem hmem
    have heq : l[l.indexOf l[k]] = l[k] := getElem_indexOf_mem hidx
    have hik : l.indexOf l[k] = k := (hn.getElem_inj_iff).mp heq
    rw [hik, List.getD_eq_getElem?_getD, List.getElem?_eq_getElem h2]
    rfl

/-- C4: converting a condensed vector of length n*(n-1)/2 to the square
matrix and reading the condensed triangle back yields the original vector
(round-trip law). -/
theorem squareform_roundtrip (n : ℕ) (v : List ℚ)
    (hv : v.length = n * (n - 1) / 2) :
    squareform_vec (squareform_mat v n) n = v := by
  have hlen : v.length = (pdistPairs n).length := by
    rw [hv, length_pdistPairs]
  unfold squareform_vec
  have hstep : (pdistPairs n).map (fun p => squareform_mat v n p.1 p.2) =
      (pdistPairs n).map (fun p => v.getD ((pdistPairs n).indexOf p) 0) := by
    apply List.map_congr_left
    intro p hp
    rcases (mem_pdistPairs n p).mp hp with ⟨h12, _⟩
    unfold squareform_mat sqIndex
    rw [if_pos h12]
  rw [hstep]
  exact map_getD_indexOf _ v (nodup_pdistPairs n) hlen

/-- Witness for C4 at the concrete vector [1, 2, 3] with n = 3. -/
theorem squareform_roundtrip_witness :
    ([1, 2, 3] : List ℚ).length = 3 * (3 - 1) / 2 ∧
      squareform_vec (squareform_mat [1, 2, 3] 3) 3 = [1, 2, 3] :=
  ⟨by decide, squareform_roundtrip 3 [1, 2, 3] (by decide)⟩

/-- C8: the square matrix reconstructed from a condensed vector is symmetric
with zero diagonal, and when the vector is the condensed distance output
over a pattern collection, the off-diagonal cell (i, j) holds the distance
between patterns i and j. -/
theorem squareform_matrix_properties :
    (∀ (v : List ℚ) (n i j : ℕ), squareform_mat v n i j = squareform_mat v n j i) ∧
      (∀ (v : List ℚ) (n i : ℕ), squareform_mat v n i i = 0) ∧
      (∀ (d : List ℚ → List ℚ → ℚ) (xs : List (List ℚ)) (i j : ℕ),
        i < j → j < xs.length →
          squareform_mat (pdist d xs) xs.length i j =
            d (xs.getD i []) (xs.getD j [])) := by
  refine ⟨?_, ?_, ?_⟩
  · intro v n i j
    rcases Nat.lt_trichotomy i j with h | h | h
    · simp [squareform_mat, h, lt_asymm h]
    · subst h
      rfl
    · simp [squareform_mat, h, lt_asymm h]
  · intro v n i
    simp [squareform_mat]
  · intro d xs i j hij hj
    have hmem : (i, j) ∈ pdistPairs xs.length :=
      (mem_pdistPairs xs.length (i, j)).mpr ⟨hij, hj⟩
    have hidx : (pdistPairs xs.length).indexOf (i, j) < (pdistPairs xs.length).length :=
      indexOf_lt_length_of_mem hmem
    have hpair : (pdistPairs xs.length)[(pdistPairs xs.length).indexOf (i, j)] = (i, j) :=
      getElem_indexOf_mem hidx
    unfold squareform_mat sqIndex
    rw [if_pos hij]
    unfold pdist
    have hlt : (pdistPairs xs.length).indexOf (i, j) <
        ((pdistPairs xs.length).map
          (fun p => d (xs.getD p.1 []) (xs.getD p.2 []))).length := by
      simpa using hidx
    rw [List.getD_eq_getElem?_getD, List.getElem?_eq_getElem hlt]
    rw [List.getElem_map]
    rw [hpair]
    rfl

/-- Witness for C8 applying the off-diagonal cell law at a concrete
two-pattern collection. -/
theorem squareform_matrix_properties_witness :
    0 < 1 ∧ 1 < ([[(1:ℚ)], [2]] : List (List ℚ)).length ∧
      squareform_mat (pdist (fun x y => x.sum + y.sum) [[(1:ℚ)], [2]]) 2 0 1 =
        ([[(1:ℚ)], [2]].getD 0 []).sum + ([[(1:ℚ)], [2]].getD 1 []).sum :=
  ⟨by decide, by decide,
    squareform_matrix_properties.2.2 (fun x y => x.sum + y.sum) [[(1:ℚ)], [2]] 0 1
      (by decide) (by decide)⟩

/-! Rank lemmas for the `rank_percentile` helper. -/

lemma getD_eq_getElem_q (a : List ℚ) (k : ℕ) (hk : k < a.length) :
    a.getD k 0 = a[k] := by
  rw [List.getD_eq_getElem?_getD, List.getElem?_eq_getElem hk]
  rfl

lemma rankdata_getD (a : List ℚ) (k : ℕ) (hk : k < a.length) :
    (rankdata a).getD k 0 =
      (a.countP (fun y => y < a.getD k 0) : ℚ) +
        ((a.countP (fun y => y = a.getD k 0) : ℚ) + 1) / 2 := by
  have hk1 : k < (rankdata a).length := by
    simpa [rankdata] using hk
  rw [getD_eq_getElem_q a k hk]
  rw [List.getD_eq_getElem?_getD, List.getElem?_eq_getElem hk1]
  unfold rankdata
  rw [List.getElem_map]
  rfl

lemma countP_lt_add_eq_le (l : List ℚ) (x : ℚ) :
    l.countP (fun y => y < x) + l.countP (fun y => y = x) ≤ l.length := by
  induction l with
  | nil => simp
  | cons a t ih =>
      simp only [List.countP_cons, List.length_cons]
      by_cases h2 : a = x
      · subst h2
        simp only [lt_irrefl, decide_False, if_false, decide_True, if_true, Bool.false_eq_true]
        omega
      · by_cases h1 : a < x
        · simp only [h1, h2, decide_True, decide_False, if_true, if_false, Bool.false_eq_true]
          omega
        · simp only [h1, h2, decide_False, if_false, Bool.false_eq_true]
          omega

lemma countP_lt_add_eq_of_le (l : List ℚ) (x : ℚ) (h : ∀ y ∈ l, y ≤ x) :
    l.countP (fun y => y < x) + l.countP (fun y => y = x) = l.length := by
  induction l with
  | nil => simp
  | cons a t ih =>
      have ha : a ≤ x := h a (List.mem_cons_self a t)
      have ht : ∀ y ∈ t, y ≤ x := fun y hy => h y (List.mem_cons_of_mem a hy)
      simp only [List.countP_cons, List.length_cons]
      by_cases h2 : a = x
      · subst h2
        simp only [lt_irrefl, decide_False, if_false, decide_True, if_true, Bool.false_eq_true]
        have := ih ht
        omega
      · have h1 : a < x := lt_of_le_of_ne ha h2
        simp only [h1, h2, decide_True, decide_False, if_true, if_false, Bool.false_eq_true]
        have := ih ht
        omega

lemma rank_bounds (a : List ℚ) (k : ℕ) (hk : k < a.length) :
    0 < (rankdata a).getD k 0 ∧ (rankdata a).getD k 0 ≤ (a.length : ℚ) := by
  rw [rankdata_getD a k hk]
  have hmem : a.getD k 0 ∈ a := by
    rw [getD_eq_getElem_q a k hk]
    exact List.getElem_mem hk
  have hcpos : 0 < a.countP (fun y => y = a.getD k 0) := by
    rw [List.countP_pos_iff]
    exact ⟨a.getD k 0, hmem, by simp⟩
  have hcle := countP_lt_add_eq_le a (a.getD k 0)
  constructor
  · apply add_pos_of_nonneg_of_pos
    · positivity
    · apply div_pos
      · positivity
      · norm_num
  · have h1 : ((a.countP (fun y => y = a.getD k 0) : ℚ) + 1) / 2 ≤
        (a.countP (fun y => y = a.getD k 0) : ℚ) := by
      rw [div_le_iff₀ (by norm_num : (0:ℚ) < 2)]
      have hge : (1:ℚ) ≤ (a.countP (fun y => y = a.getD k 0) : ℚ) := by
        exact_mod_cast hcpos
      linarith
    have h2 : (a.countP (fun y => y < a.getD k 0) : ℚ) +
        (a.countP (fun y => y = a.getD k 0) : ℚ) ≤ (a.length : ℚ) := by
      exact_mod_cast hcle
    linarith

lemma rank_percentile_getD (a : List ℚ) (k : ℕ) (hk : k < a.length) :
    (rank_percentile a).getD k 0 =
      (rankdata a).getD k 0 / (a.length : ℚ) * 100 := by
  have hk1 : k < (rankdata a).length := by
    simpa [rankdata] using hk
  have hk2 : k < (rank_percentile a).length := by
    simpa [rank_percentile, rankdata] using hk
  rw [List.getD_eq_getElem?_getD, List.getElem?_eq_getElem hk2]
  rw [List.getD_eq_getElem?_getD, List.getElem?_eq_getElem hk1]
  unfold rank_percentile
  rw [List.getElem_map]
  rfl

lemma rankdata_map_strictMono (f : ℚ → ℚ) (hf : StrictMono f) (a : List ℚ) :
    rankdata (a.map f) = rankdata a := by
  unfold rankdata
  rw [List.map_map]
  apply List.map_congr_left
  intro x hx
  simp only [Function.comp]
  rw [List.countP_map, List.countP_map]
  have h1 : ((fun y => decide (y < f x)) ∘ f) = (fun y : ℚ => decide (y < x)) := by
    funext y
    simp [Function.comp, hf.lt_iff_lt]
  have h2 : ((fun y => decide (y = f x)) ∘ f) = (fun y : ℚ => decide (y = x)) := by
    funext y
    simp [Function.comp, hf.injective.eq_iff]
  rw [h1, h2]

/-- C10: `rank_percentile` preserves length, equals `rankdata(a)/n*100`
entrywise, maps every entry of a nonempty input into the interval (0, 100],
sends a unique maximum to exactly 100, and is invariant under strictly
monotone transformations of the input. -/
theorem rank_percentile_spec :
    (∀ a : List ℚ, (rank_percentile a).length = a.length) ∧
      (∀ a : List ℚ,
        rank_percentile a = (rankdata a).map (fun r => r / (a.length : ℚ) * 100)) ∧
      (∀ (a : List ℚ) (k : ℕ), k < a.length →
        0 < (rank_percentile a).getD k 0 ∧ (rank_percentile a).getD k 0 ≤ 100) ∧
      (∀ (a : List ℚ) (k : ℕ), k < a.length →
        (∀ y ∈ a, y ≤ a.getD k 0) →
        a.countP (fun y => y = a.getD k 0) = 1 →
        (rank_percentile a).getD k 0 = 100) ∧
      (∀ f : ℚ → ℚ, StrictMono f → ∀ a : List ℚ,
        rank_percentile (a.map f) = rank_percentile a) := by
  refine ⟨?_, fun a => rfl, ?_, ?_, ?_⟩
  · intro a
    simp [rank_percentile, rankdata]
  · intro a k hk
    have hn : (0:ℚ) < (a.length : ℚ) := by
      have h0 : 0 < a.length := lt_of_le_of_lt (Nat.zero_le k) hk
      exact_mod_cast h0
    obtain ⟨hpos, hle⟩ := rank_bounds a k hk
    rw [rank_percentile_getD a k hk]
    constructor
    · apply mul_pos
      · exact div_pos hpos hn
      · norm_num
    · have hdiv : (rankdata a).getD k 0 / (a.length : ℚ) ≤ 1 := by
        rw [div_le_one hn]
        exact hle
      calc (rankdata a).getD k 0 / (a.length : ℚ) * 100 ≤ 1 * 100 := by
            apply mul_le_mul_of_nonneg_right hdiv
            norm_num
        _ = 100 := by norm_num
  · intro a k hk hmax huniq
    have hn : 0 < a.length := lt_of_le_of_lt (Nat.zero_le k) hk
    have hnq : ((a.length : ℚ)) ≠ 0 := by
      have h0 : (0:ℚ) < (a.length : ℚ) := by exact_mod_cast hn
      linarith
    have hsum := countP_lt_add_eq_of_le a (a.getD k 0) hmax
    rw [huniq] at hsum
    rw [rank_percentile_getD a k hk, rankdata_getD a k hk, huniq]
    have hclt : (a.countP (fun y => y < a.getD k 0) : ℚ) = (a.length : ℚ) - 1 := by
      have hcast : ((a.countP (fun y => y < a.getD k 0) + 1 : ℕ) : ℚ) = (a.length : ℚ) := by
        exact_mod_cast congrArg (fun m : ℕ => (m : ℚ)) hsum
      push_cast at hcast
      linarith
    rw [hclt]
    field_simp
  · intro f hf a
    unfold rank_percentile
    rw [rankdata_map_strictMono f hf a, List.length_map]

/-- Witness for C10 at the concrete array [3, 1, 2] (bounds and unique
maximum at index 0) and the strictly monotone shift f y = y + 1 on [1, 2]. -/
theorem rank_percentile_spec_witness :
    (0 < ([3, 1, 2] : List ℚ).length ∧
      0 < (rank_percentile [3, 1, 2]).getD 0 0 ∧
      (rank_percentile [3, 1, 2]).getD 0 0 ≤ 100) ∧
      (rank_percentile [3, 1, 2]).getD 0 0 = 100 ∧
      rank_percentile ([1, 2].map (fun y => y + 1)) = rank_percentile [1, 2] := by
  have hk : (0:ℕ) < ([3, 1, 2] : List ℚ).length := by decide
  have hmax : ∀ y ∈ ([3, 1, 2] : List ℚ), y ≤ [3, 1, 2].getD 0 0 := by
    intro y hy
    simp only [List.mem_cons, List.not_mem_nil, or_false] at hy
    rcases hy with rfl | rfl | rfl <;> norm_num
  have huniq : ([3, 1, 2] : List ℚ).countP (fun y => y = [3, 1, 2].getD 0 0) = 1 := by
    norm_num [List.countP_cons]
  have hmono : StrictMono (fun y : ℚ => y + 1) := fun u v huv => by
    simpa using huv
  obtain ⟨hpos, hle⟩ := rank_percentile_spec.2.2.1 [3, 1, 2] 0 hk
  refine ⟨⟨hk, hpos, hle⟩, ?_, ?_⟩
  · exact rank_percentile_spec.2.2.2.1 [3, 1, 2] 0 hk hmax huniq
  · exact rank_percentile_spec.2.2.2.2 (fun y => y + 1) hmono [1, 2]

end RSA
